import Mathlib

set_option maxRecDepth 4000

/-!
Shallow embedding of the `steg` package (Unicode steganography tool).

Python strings are modelled as `List Nat` of Unicode code points.
Each definition is translated from the corresponding function in
`src/steg/algorithms.py`, `src/steg/injection.py` and `src/steg/core.py`.
-/

namespace Steg

/-- The set of code points `c` with `chr(c).isspace()` true in Python:
ASCII whitespace and control separators, NEL, NBSP, and the Unicode
space/line/paragraph separators.  Note U+200B and U+200C are NOT whitespace. -/
def WHITESPACE : List Nat :=
  [9, 10, 11, 12, 13, 0x1c, 0x1d, 0x1e, 0x1f, 0x20, 0x85, 0xa0, 0x1680,
   0x2000, 0x2001, 0x2002, 0x2003, 0x2004, 0x2005, 0x2006, 0x2007, 0x2008,
   0x2009, 0x200a, 0x2028, 0x2029, 0x202f, 0x205f, 0x3000]

/-- Python `char.isspace()` on a single code point. -/
def isSpace (c : Nat) : Bool := WHITESPACE.contains c

/-- `ZERO_WIDTH_MAP['0']`: ZERO-WIDTH SPACE. -/
def ZWS : Nat := 0x200b

/-- `ZERO_WIDTH_MAP['1']`: ZERO-WIDTH NON-JOINER. -/
def ZWNJ : Nat := 0x200c

/-- `TAG_BASE = 0xE0000`, the Unicode TAG block base (algorithms.py). -/
def TAG_BASE : Nat := 0xE0000

/-- Membership in the zero-width carrier alphabet {U+200B, U+200C}. -/
def isZWCarrier (c : Nat) : Bool := c == ZWS || c == ZWNJ

/-- Membership in the TAG carrier alphabet [U+E0000, U+E007F]. -/
def isTagCarrier (c : Nat) : Bool := decide (TAG_BASE ≤ c) && decide (c ≤ TAG_BASE + 0x7F)

/-- Big-endian binary digits of `n` with no leading zeros (empty for 0),
computed with an explicit fuel argument (`n` itself suffices) so that the
function is structurally recursive and kernel-evaluable. -/
def bitsBEAux : Nat → Nat → List Nat
  | 0, _ => []
  | fuel + 1, n => if n = 0 then [] else bitsBEAux fuel (n / 2) ++ [n % 2]

/-- Big-endian binary digits of `n` (no leading zeros; empty for 0). -/
def bitsBE (n : Nat) : List Nat := bitsBEAux n n

/-- Python `format(n, '08b')`: big-endian binary of `n`, zero-padded on the
left to a minimum width of 8; for `n ≥ 256` the full (longer) binary
representation is produced, it is NOT truncated. -/
def pyFormat08b (n : Nat) : List Nat :=
  List.replicate (8 - (bitsBE n).length) 0 ++ bitsBE n

/-- `ZERO_WIDTH_MAP.get(bit, '')` from `encode_zero_width`:
bit '0' becomes U+200B, bit '1' becomes U+200C, anything else is dropped
(the binary string only ever contains '0'/'1'). -/
def zwBitEnc (b : Nat) : Option Nat :=
  if b = 0 then some ZWS else if b = 1 then some ZWNJ else none

/-- `ZERO_WIDTH_DECODE.get(char, '')` from `decode_zero_width`:
U+200B decodes to bit 0, U+200C to bit 1, anything else is ignored. -/
def zwDecodeBit (c : Nat) : Option Nat :=
  if c = ZWS then some 0 else if c = ZWNJ then some 1 else none

/-- `algorithms.encode_zero_width`: concatenate `format(ord(ch), '08b')`
over the secret, then map each binary digit through `ZERO_WIDTH_MAP`. -/
def encode_zero_width (secret : List Nat) : List Nat :=
  ((secret.map pyFormat08b).flatten).filterMap zwBitEnc

/-- `algorithms.encode_tag`: keep only code points ≤ 0x7F and shift each
by `TAG_BASE` (non-ASCII characters are silently skipped). -/
def encode_tag (secret : List Nat) : List Nat :=
  (secret.filter (fun c => decide (c ≤ 0x7F))).map (fun c => TAG_BASE + c)

/-- Python `int(byte, 2)` on a string of binary digits: big-endian fold. -/
def bitsToNat (bs : List Nat) : Nat :=
  bs.foldl (fun a b => 2 * a + b) 0

/-- The chunking loop of `decode_zero_width`: take the bit list in 8-bit
chunks, convert each full chunk with `int(byte, 2)`, and discard a trailing
partial chunk.  Fuel-based so that it is structurally recursive; the list
length is always a sufficient fuel.  (The `try/except ValueError` in the
source is dead code: every full chunk is a valid code point.) -/
def groupBytesAux : Nat → List Nat → List Nat
  | 0, _ => []
  | fuel + 1, bs =>
      if 8 ≤ bs.length then bitsToNat (bs.take 8) :: groupBytesAux fuel (bs.drop 8)
      else []

/-- Group a bit list into bytes, discarding a trailing partial chunk. -/
def groupBytes (bs : List Nat) : List Nat := groupBytesAux bs.length bs

/-- `algorithms.decode_zero_width`: collect the bits of every alphabet
character anywhere in the text, then group into 8-bit chunks. -/
def decode_zero_width (text : List Nat) : List Nat :=
  groupBytes (text.filterMap zwDecodeBit)

/-- The per-character filter of `algorithms.decode_tag`. -/
def tagDec (c : Nat) : Option Nat :=
  if TAG_BASE ≤ c ∧ c ≤ TAG_BASE + 0x7F then some (c - TAG_BASE) else none

/-- `algorithms.decode_tag`: keep every character in the TAG block and
shift it back down by `TAG_BASE`. -/
def decode_tag (text : List Nat) : List Nat :=
  text.filterMap tagDec

/-- Index of the first whitespace character, if any
(the loop of the `first-space` branch of `find_injection_point`). -/
def firstSpaceIdx : List Nat → Option Nat
  | [] => none
  | c :: rest => if isSpace c then some 0 else (firstSpaceIdx rest).map (· + 1)

/-- Tokenizer state machine behind Python `str.split()` (no arguments):
maximal runs of non-whitespace characters, together with the 0-based start
position of each run.  The accumulator holds the (reversed) characters of
the token currently being read and its start position. -/
def tokenizeAux : List Nat → Nat → Option (Nat × List Nat) → List (Nat × List Nat)
  | [], _, none => []
  | [], _, some (st, acc) => [(st, acc.reverse)]
  | c :: rest, i, none =>
      if isSpace c then tokenizeAux rest (i + 1) none
      else tokenizeAux rest (i + 1) (some (i, [c]))
  | c :: rest, i, some (st, acc) =>
      if isSpace c then (st, acc.reverse) :: tokenizeAux rest (i + 1) none
      else tokenizeAux rest (i + 1) (some (st, c :: acc))

/-- The whitespace tokens of a text, with their start positions. -/
def tokenize (text : List Nat) : List (Nat × List Nat) := tokenizeAux text 0 none

/-- Python `visible_text.split()`: the whitespace-delimited words. -/
def pySplit (text : List Nat) : List (List Nat) := (tokenize text).map Prod.snd

/-- Scanning worker for Python `text.find(w, i)`: try indices `i`, `i+1`, …
as long as the suffix list (the fuel) is non-empty. -/
def findSubAux (text w : List Nat) : Nat → List Nat → Option Nat
  | i, [] => if (text.drop i).take w.length = w then some i else none
  | i, _ :: rest =>
      if (text.drop i).take w.length = w then some i
      else findSubAux text w (i + 1) rest

/-- Python `text.find(w, start)` (as an `Option`: `none` for `-1`):
smallest index `p ≥ start` where `w` occurs as a contiguous sublist. -/
def findSubFrom (text w : List Nat) (start : Nat) : Option Nat :=
  findSubAux text w start (text.drop start)

/-- The `word-N` loop of `find_injection_point`:
`word_end = visible_text.find(words[i], word_end) + len(words[i])` for each
of the first N words.  Python yields `-1 + len(w)` when `find` misses; split
words are never empty, so that value is `len(w) - 1 ≥ 0`, written here as
the natural subtraction `w.length - 1` (the branch is in fact unreachable). -/
def wordEndLoop (text : List Nat) : List (List Nat) → Nat → Nat
  | [], e => e
  | w :: ws, e =>
      match findSubFrom text w e with
      | some p => wordEndLoop text ws (p + w.length)
      | none => wordEndLoop text ws (w.length - 1)

/-- The placement rules of `find_injection_point`, i.e. the parsed forms of
`first-space`, `end`, `word-<n>` and `char-<n>`.  The textual grammar only
produces non-negative numbers (`int()` fails on a second dash), so the
indices are naturals. -/
inductive Placement
  | firstSpace
  | atEnd
  | wordIndex (n : Nat)
  | charOffset (n : Nat)
deriving DecidableEq

/-- The typed errors of the core (all `ValueError` in the Python source;
the spec names them as listed here). -/
inductive StegError
  | emptyVisibleText
  | visibleTextTooLong
  | secretTooLong
  | noWhitespaceFound
  | wordIndexOutOfRange
  | charOffsetOutOfRange
  | unknownMethod
deriving DecidableEq

/-- `injection.find_injection_point`. -/
def find_injection_point (v : List Nat) (p : Placement) : Except StegError Nat :=
  match p with
  | .firstSpace =>
      match firstSpaceIdx v with
      | some i => .ok (i + 1)
      | none => .error .noWhitespaceFound
  | .atEnd => .ok v.length
  | .wordIndex n =>
      if n < 1 ∨ (pySplit v).length < n then .error .wordIndexOutOfRange
      else .ok (wordEndLoop v ((pySplit v).take n) 0)
  | .charOffset n =>
      if v.length < n then .error .charOffsetOutOfRange else .ok n

/-- `core.MAX_SECRET_LENGTH`. -/
def MAX_SECRET_LENGTH : Nat := 10000

/-- `core.MAX_VISIBLE_LENGTH`. -/
def MAX_VISIBLE_LENGTH : Nat := 100000

/-- `core.encode`.  The Tag branch additionally prints a warning listing the
skipped non-ASCII characters; that console side effect has no influence on
the returned string and is not modelled. -/
def encode (visible secret : List Nat) (method : String) (p : Placement) :
    Except StegError (List Nat) :=
  if visible = [] then .error .emptyVisibleText
  else if MAX_VISIBLE_LENGTH < visible.length then .error .visibleTextTooLong
  else if MAX_SECRET_LENGTH < secret.length then .error .secretTooLong
  else
    match find_injection_point visible p with
    | .error e => .error e
    | .ok pos =>
        if method = "zero-width" then
          .ok (visible.take pos ++ encode_zero_width secret ++ visible.drop pos)
        else if method = "tag" then
          .ok (visible.take pos ++ encode_tag secret ++ visible.drop pos)
        else .error .unknownMethod

/-- `core.decode`.  The `auto` branch recursively calls `decode` with each
concrete method; both of those calls always succeed, so they are inlined
(`x if x else y` treats only the empty string as falsy). -/
def decode (text : List Nat) (method : String) : Except StegError (List Nat) :=
  if method = "auto" then
    .ok (if decode_zero_width text = [] then decode_tag text else decode_zero_width text)
  else if method = "zero-width" then .ok (decode_zero_width text)
  else if method = "tag" then .ok (decode_tag text)
  else .error .unknownMethod

/-- Code points of a Lean string literal, for concrete test vectors. -/
def strCodes (s : String) : List Nat := s.data.map Char.toNat

/-! ### Bit-level lemmas -/

lemma bitsToNat_append_bit (bs : List Nat) (b : Nat) :
    bitsToNat (bs ++ [b]) = 2 * bitsToNat bs + b := by
  simp [bitsToNat, List.foldl_append]

lemma bitsToNat_replicate_zero_append (k : Nat) (bs : List Nat) :
    bitsToNat (List.replicate k 0 ++ bs) = bitsToNat bs := by
  induction k with
  | zero => simp
  | succ k ih => simpa [bitsToNat, List.replicate_succ] using ih

lemma bitsToNat_bitsBEAux (fuel : Nat) :
    ∀ n, n ≤ fuel → bitsToNat (bitsBEAux fuel n) = n := by
  induction fuel with
  | zero =>
      intro n hn
      interval_cases n
      simp [bitsBEAux, bitsToNat]
  | succ fuel ih =>
      intro n hn
      by_cases h0 : n = 0
      · simp [bitsBEAux, h0, bitsToNat]
      · rw [bitsBEAux, if_neg h0, bitsToNat_append_bit, ih (n / 2) (by omega)]
        omega

lemma bitsToNat_bitsBE (n : Nat) : bitsToNat (bitsBE n) = n :=
  bitsToNat_bitsBEAux n n le_rfl

lemma bitsToNat_pyFormat08b (n : Nat) : bitsToNat (pyFormat08b n) = n := by
  rw [pyFormat08b, bitsToNat_replicate_zero_append, bitsToNat_bitsBE]

lemma bitsBEAux_length_le (fuel : Nat) :
    ∀ n k, n ≤ fuel → n < 2 ^ k → (bitsBEAux fuel n).length ≤ k := by
  induction fuel with
  | zero =>
      intro n k hn _
      interval_cases n
      simp [bitsBEAux]
  | succ fuel ih =>
      intro n k hn hk
      by_cases h0 : n = 0
      · simp [bitsBEAux, h0]
      · rw [bitsBEAux, if_neg h0]
        rcases k with _ | k
        · omega
        · have hdiv : n / 2 < 2 ^ k := by
            have : (2 : Nat) ^ (k + 1) = 2 ^ k * 2 := by ring
            rw [this] at hk
            omega
          have := ih (n / 2) k (by omega) hdiv
          simp only [List.length_append, List.length_cons, List.length_nil]
          omega

lemma bitsBEAux_length_gt (fuel : Nat) :
    ∀ n k, n ≤ fuel → 2 ^ k ≤ n → k < (bitsBEAux fuel n).length := by
  induction fuel with
  | zero =>
      intro n k hn hk
      have : (0 : Nat) < 2 ^ k := Nat.pos_pow_of_pos k (by omega)
      omega
  | succ fuel ih =>
      intro n k hn hk
      have hpos : (0 : Nat) < 2 ^ k := Nat.pos_pow_of_pos k (by omega)
      have h0 : n ≠ 0 := by omega
      rw [bitsBEAux, if_neg h0]
      rcases k with _ | k
      · simp
      · have hdiv : 2 ^ k ≤ n / 2 := by
          have : (2 : Nat) ^ (k + 1) = 2 ^ k * 2 := by ring
          rw [this] at hk
          omega
        have := ih (n / 2) k (by omega) hdiv
        simp
        omega

lemma pyFormat08b_length (n : Nat) (h : n ≤ 255) : (pyFormat08b n).length = 8 := by
  have := bitsBEAux_length_le n n 8 le_rfl (by omega)
  rw [pyFormat08b]
  rw [bitsBE] at *
  simp
  omega

lemma pyFormat08b_length_gt (n : Nat) (h : 255 < n) : 8 < (pyFormat08b n).length := by
  have := bitsBEAux_length_gt n n 8 le_rfl (by omega)
  rw [pyFormat08b]
  rw [bitsBE] at *
  simp
  omega

lemma bitsBEAux_bits_le (fuel : Nat) :
    ∀ n, ∀ b ∈ bitsBEAux fuel n, b ≤ 1 := by
  induction fuel with
  | zero => intro n b hb; simp [bitsBEAux] at hb
  | succ fuel ih =>
      intro n b hb
      by_cases h0 : n = 0
      · simp [bitsBEAux, h0] at hb
      · rw [bitsBEAux, if_neg h0] at hb
        rcases List.mem_append.mp hb with h | h
        · exact ih (n / 2) b h
        · simp at h
          omega

lemma pyFormat08b_bits_le (n : Nat) : ∀ b ∈ pyFormat08b n, b ≤ 1 := by
  intro b hb
  rcases List.mem_append.mp hb with h | h
  · have := List.eq_of_mem_replicate h
    omega
  · exact bitsBEAux_bits_le n n b h

lemma bitsToNat_lt (bs : List Nat) (h : ∀ b ∈ bs, b ≤ 1) :
    bitsToNat bs < 2 ^ bs.length := by
  induction bs using List.reverseRecOn with
  | nil => simp [bitsToNat]
  | append_singleton bs b ih =>
      rw [bitsToNat_append_bit]
      have hb : b ≤ 1 := h b (by simp)
      have hbs : bitsToNat bs < 2 ^ bs.length := ih (fun x hx => h x (by simp [hx]))
      have : (2 : Nat) ^ (bs ++ [b]).length = 2 ^ bs.length * 2 := by
        simp [List.length_append]
        ring
      rw [this]
      omega

/-! ### Byte-grouping lemmas -/

lemma groupBytesAux_congr (f : Nat) :
    ∀ g bs, bs.length ≤ f → bs.length ≤ g → groupBytesAux f bs = groupBytesAux g bs := by
  induction f with
  | zero =>
      intro g bs hf _
      have : bs = [] := List.eq_nil_of_length_eq_zero (by omega)
      subst this
      cases g <;> simp [groupBytesAux]
  | succ f ih =>
      intro g bs hf hg
      cases g with
      | zero =>
          have : bs = [] := List.eq_nil_of_length_eq_zero (by omega)
          subst this
          simp [groupBytesAux]
      | succ g =>
          rw [groupBytesAux, groupBytesAux]
          by_cases h8 : 8 ≤ bs.length
          · rw [if_pos h8, if_pos h8,
              ih g (bs.drop 8) (by simp; omega) (by simp; omega)]
          · rw [if_neg h8, if_neg h8]

lemma groupBytes_cons8 (a bs : List Nat) (ha : a.length = 8) :
    groupBytes (a ++ bs) = bitsToNat a :: groupBytes bs := by
  have hlen : (a ++ bs).length = bs.length + 8 := by simp [ha]; omega
  rw [groupBytes, hlen, groupBytesAux,
    if_pos (by simp [ha] : 8 ≤ (a ++ bs).length)]
  rw [List.take_left' ha, List.drop_left' ha]
  rw [groupBytesAux_congr (bs.length + 7) bs.length bs (by omega) le_rfl]
  rfl

lemma groupBytes_flatten_bytes (s : List Nat) (h : ∀ c ∈ s, c ≤ 255) :
    groupBytes ((s.map pyFormat08b).flatten) = s := by
  induction s with
  | nil => rfl
  | cons c s ih =>
      rw [List.map_cons, List.flatten_cons,
        groupBytes_cons8 _ _ (pyFormat08b_length c (h c (by simp))),
        bitsToNat_pyFormat08b, ih (fun x hx => h x (by simp [hx]))]

/-! ### Codec round-trip lemmas -/

lemma zw_bits_roundtrip (bs : List Nat) (h : ∀ b ∈ bs, b ≤ 1) :
    (bs.filterMap zwBitEnc).filterMap zwDecodeBit = bs := by
  induction bs with
  | nil => rfl
  | cons b bs ih =>
      have hb : b = 0 ∨ b = 1 := by have := h b (by simp); omega
      have ihr := ih (fun x hx => h x (by simp [hx]))
      rcases hb with rfl | rfl
      · have h1 : zwBitEnc 0 = some ZWS := rfl
        have h2 : zwDecodeBit ZWS = some 0 := rfl
        simp [List.filterMap_cons, h1, h2, ihr]
      · have h1 : zwBitEnc 1 = some ZWNJ := rfl
        have h2 : zwDecodeBit ZWNJ = some 1 := rfl
        simp [List.filterMap_cons, h1, h2, ihr]

lemma decode_zw_encode (s : List Nat) (h : ∀ c ∈ s, c ≤ 255) :
    decode_zero_width (encode_zero_width s) = s := by
  rw [decode_zero_width, encode_zero_width, zw_bits_roundtrip,
    groupBytes_flatten_bytes s h]
  intro b hb
  rcases List.mem_flatten.mp hb with ⟨l, hl, hbl⟩
  rcases List.mem_map.mp hl with ⟨c, _, rfl⟩
  exact pyFormat08b_bits_le c b hbl

lemma decode_tag_encode (s : List Nat) (h : ∀ c ∈ s, c ≤ 127) :
    decode_tag (encode_tag s) = s := by
  induction s with
  | nil => rfl
  | cons c s ih =>
      have hc : c ≤ 127 := h c (by simp)
      have ihr := ih (fun x hx => h x (by simp [hx]))
      rw [encode_tag, List.filter_cons_of_pos (by simp; omega), List.map_cons]
      rw [decode_tag, List.filterMap_cons]
      have hcond : TAG_BASE ≤ TAG_BASE + c ∧ TAG_BASE + c ≤ TAG_BASE + 0x7F := by
        refine ⟨Nat.le_add_right _ _, ?_⟩
        omega
      have h1 : tagDec (TAG_BASE + c) = some c := by
        rw [tagDec, if_pos hcond, Nat.add_sub_cancel_left]
      rw [h1]
      show c :: decode_tag (encode_tag s) = c :: s
      rw [ihr]

/-! ### Carrier-alphabet lemmas -/

lemma encode_zero_width_carrier (s : List Nat) :
    ∀ c ∈ encode_zero_width s, isZWCarrier c = true := by
  intro c hc
  rcases List.mem_filterMap.mp hc with ⟨b, _, hb⟩
  rw [zwBitEnc] at hb
  by_cases h0 : b = 0
  · rw [if_pos h0] at hb
    cases hb
    rfl
  · rw [if_neg h0] at hb
    by_cases h1 : b = 1
    · rw [if_pos h1] at hb
      cases hb
      rfl
    · rw [if_neg h1] at hb
      cases hb

lemma encode_tag_carrier (s : List Nat) :
    ∀ c ∈ encode_tag s, isTagCarrier c = true := by
  intro c hc
  rcases List.mem_map.mp hc with ⟨x, hx, rfl⟩
  have : x ≤ 0x7F := by
    have := List.of_mem_filter hx
    simpa using this
  simp [isTagCarrier]
  omega

lemma zwDecodeBit_eq_none (c : Nat) (h : isZWCarrier c = false) : zwDecodeBit c = none := by
  rw [isZWCarrier] at h
  simp at h
  rw [zwDecodeBit, if_neg h.1, if_neg h.2]

lemma tagDec_eq_none (c : Nat) (h : isTagCarrier c = false) : tagDec c = none := by
  rw [isTagCarrier] at h
  simp at h
  rw [tagDec, if_neg]
  rintro ⟨h1, h2⟩
  have := h h1
  omega

lemma filterMap_zw_none (v : List Nat) (h : ∀ c ∈ v, isZWCarrier c = false) :
    v.filterMap zwDecodeBit = [] := by
  rw [List.filterMap_eq_nil_iff]
  exact fun c hc => zwDecodeBit_eq_none c (h c hc)

lemma filterMap_tag_none (v : List Nat) (h : ∀ c ∈ v, isTagCarrier c = false) :
    v.filterMap tagDec = [] := by
  rw [List.filterMap_eq_nil_iff]
  exact fun c hc => tagDec_eq_none c (h c hc)

lemma decode_zw_splice (v C : List Nat) (pos : Nat) (h : ∀ c ∈ v, isZWCarrier c = false) :
    decode_zero_width (v.take pos ++ C ++ v.drop pos) = decode_zero_width C := by
  rw [decode_zero_width, decode_zero_width, List.filterMap_append, List.filterMap_append,
    filterMap_zw_none _ (fun c hc => h c (List.take_subset pos v hc)),
    filterMap_zw_none _ (fun c hc => h c (List.drop_subset pos v hc))]
  simp

lemma decode_tag_splice (v C : List Nat) (pos : Nat) (h : ∀ c ∈ v, isTagCarrier c = false) :
    decode_tag (v.take pos ++ C ++ v.drop pos) = decode_tag C := by
  rw [decode_tag, decode_tag, List.filterMap_append, List.filterMap_append,
    filterMap_tag_none _ (fun c hc => h c (List.take_subset pos v hc)),
    filterMap_tag_none _ (fun c hc => h c (List.drop_subset pos v hc))]
  simp

/-! ### First-space lemmas -/

lemma firstSpaceIdx_some (v : List Nat) :
    ∀ i, firstSpaceIdx v = some i →
      i < v.length ∧ isSpace (v.getD i 0) = true ∧ ∀ j < i, isSpace (v.getD j 0) = false := by
  induction v with
  | nil => intro i h; simp [firstSpaceIdx] at h
  | cons c rest ih =>
      intro i h
      rw [firstSpaceIdx] at h
      by_cases hc : isSpace c
      · rw [if_pos hc] at h
        cases h
        exact ⟨by simp, by simpa using hc, by omega⟩
      · rw [if_neg hc] at h
        rcases Option.map_eq_some'.mp h with ⟨i', hi', rfl⟩
        obtain ⟨h1, h2, h3⟩ := ih i' hi'
        refine ⟨by simp; omega, by simpa using h2, ?_⟩
        intro j hj
        cases j with
        | zero => simpa using hc
        | succ j => simpa using h3 j (by omega)

lemma firstSpaceIdx_none (v : List Nat) (h : firstSpaceIdx v = none) :
    ∀ c ∈ v, isSpace c = false := by
  induction v with
  | nil => intro c hc; simp at hc
  | cons a rest ih =>
      intro c hc
      rw [firstSpaceIdx] at h
      by_cases ha : isSpace a
      · rw [if_pos ha] at h; cases h
      · rw [if_neg ha] at h
        rcases List.mem_cons.mp hc with rfl | hc'
        · simpa using ha
        · exact ih (Option.map_eq_none'.mp h) c hc'

/-! ### Substring-search lemmas (Python `str.find`) -/

lemma drop_succ_of_drop_cons {text rest : List Nat} {c : Nat} {i : Nat}
    (h : text.drop i = c :: rest) : text.drop (i + 1) = rest := by
  have h1 : (text.drop i).drop 1 = text.drop (i + 1) := List.drop_drop 1 i text
  rw [h] at h1
  simpa using h1.symm

lemma findSubFrom_of_match (text w : List Nat) (e : Nat)
    (h : (text.drop e).take w.length = w) : findSubFrom text w e = some e := by
  rw [findSubFrom]
  cases hd : text.drop e with
  | nil => rw [findSubAux, if_pos h]
  | cons a l => rw [findSubAux, if_pos h]

lemma findSubFrom_step (text w : List Nat) (e : Nat) (hw : w ≠ [])
    (h : ¬ (text.drop e).take w.length = w) :
    findSubFrom text w e = findSubFrom text w (e + 1) := by
  rw [findSubFrom, findSubFrom]
  cases hd : text.drop e with
  | nil =>
      have hlen : text.length ≤ e := List.drop_eq_nil_iff.mp hd
      have hd1 : text.drop (e + 1) = [] := List.drop_eq_nil_of_le (by omega)
      rw [hd1, findSubAux, findSubAux, if_neg h, if_neg]
      intro hcon
      rw [hd1] at hcon
      simp at hcon
      exact hw hcon
  | cons a l =>
      rw [findSubAux, if_neg h, drop_succ_of_drop_cons hd]

lemma findSubAux_sound (text w : List Nat) :
    ∀ l i p, findSubAux text w i l = some p →
      (text.drop p).take w.length = w ∧ i ≤ p := by
  intro l
  induction l with
  | nil =>
      intro i p h
      rw [findSubAux] at h
      by_cases hc : (text.drop i).take w.length = w
      · rw [if_pos hc] at h; cases h; exact ⟨hc, le_rfl⟩
      · rw [if_neg hc] at h; cases h
  | cons a l ih =>
      intro i p h
      rw [findSubAux] at h
      by_cases hc : (text.drop i).take w.length = w
      · rw [if_pos hc] at h; cases h; exact ⟨hc, le_rfl⟩
      · rw [if_neg hc] at h
        obtain ⟨h1, h2⟩ := ih (i + 1) p h
        exact ⟨h1, by omega⟩

lemma findSubFrom_sound (text w : List Nat) (e p : Nat)
    (h : findSubFrom text w e = some p) :
    (text.drop p).take w.length = w ∧ e ≤ p :=
  findSubAux_sound text w _ e p h

/-! ### Word-scanning loop lemmas -/

lemma not_match_of_space (text w : List Nat) (e : Nat) (c : Nat) (rest : List Nat)
    (hd : text.drop e = c :: rest) (hc : isSpace c = true)
    (hw : w ≠ []) (hns : ∀ x ∈ w, isSpace x = false) :
    ¬ (text.drop e).take w.length = w := by
  intro h
  rw [hd] at h
  cases w with
  | nil => exact hw rfl
  | cons a w' =>
      rw [List.length_cons, List.take_succ_cons] at h
      have hca : c = a := (List.cons.injEq _ _ _ _).mp h |>.1
      have := hns a (by simp)
      rw [← hca, hc] at this
      cases this

lemma wordEndLoop_step_space (text : List Nat) (w0 : List Nat) (ws : List (List Nat)) (e : Nat)
    (hw : w0 ≠ []) (h : ¬ (text.drop e).take w0.length = w0) :
    wordEndLoop text (w0 :: ws) e = wordEndLoop text (w0 :: ws) (e + 1) := by
  rw [wordEndLoop, wordEndLoop, findSubFrom_step text w0 e hw h]

lemma wordEndLoop_start_match (text : List Nat) (w0 : List Nat) (ws : List (List Nat)) (e : Nat)
    (h : (text.drop e).take w0.length = w0) :
    wordEndLoop text (w0 :: ws) e = wordEndLoop text ws (e + w0.length) := by
  rw [wordEndLoop, findSubFrom_of_match text w0 e h]

/-! ### Tokenizer invariants -/

lemma drop_at_state {text : List Nat} {st0 : Nat} {acc l : List Nat}
    (hd : text.drop st0 = acc.reverse ++ l) :
    text.drop (st0 + acc.length) = l := by
  have h1 : (text.drop st0).drop acc.reverse.length = text.drop (st0 + acc.reverse.length) :=
    List.drop_drop _ _ _
  rw [hd, List.drop_left] at h1
  rw [List.length_reverse] at h1
  exact h1.symm

lemma tokenizeAux_tokens (l : List Nat) :
    ∀ i : Nat,
      (∀ q ∈ tokenizeAux l i none, q.2 ≠ [] ∧ ∀ c ∈ q.2, isSpace c = false)
    ∧ (∀ st acc, acc ≠ [] → (∀ c ∈ acc, isSpace c = false) →
        ∀ q ∈ tokenizeAux l i (some (st, acc)), q.2 ≠ [] ∧ ∀ c ∈ q.2, isSpace c = false) := by
  induction l with
  | nil =>
      intro i
      constructor
      · intro q hq; simp [tokenizeAux] at hq
      · intro st acc hne hns q hq
        simp [tokenizeAux] at hq
        subst hq
        refine ⟨by simpa using hne, ?_⟩
        intro c hc
        exact hns c (by simpa using hc)
  | cons c rest ih =>
      intro i
      constructor
      · intro q hq
        simp only [tokenizeAux] at hq
        by_cases hc : isSpace c
        · rw [if_pos hc] at hq
          exact (ih (i + 1)).1 q hq
        · rw [if_neg hc] at hq
          refine (ih (i + 1)).2 i [c] (by simp) ?_ q hq
          intro x hx
          rw [List.mem_singleton.mp hx]
          simpa using hc
      · intro st acc hne hns q hq
        simp only [tokenizeAux] at hq
        by_cases hc : isSpace c
        · rw [if_pos hc] at hq
          rcases List.mem_cons.mp hq with rfl | hq2
          · refine ⟨by simpa using hne, ?_⟩
            intro x hx
            exact hns x (by simpa using hx)
          · exact (ih (i + 1)).1 q hq2
        · rw [if_neg hc] at hq
          refine (ih (i + 1)).2 st (c :: acc) (by simp) ?_ q hq
          intro x hx
          rcases List.mem_cons.mp hx with rfl | hx2
          · simpa using hc
          · exact hns x hx2

lemma tokenizeAux_occ (l : List Nat) :
    ∀ (text : List Nat) (i : Nat),
      (text.drop i = l →
        ∀ q ∈ tokenizeAux l i none, (text.drop q.1).take q.2.length = q.2)
    ∧ (∀ st acc, text.drop st = acc.reverse ++ l → i = st + acc.length →
        ∀ q ∈ tokenizeAux l i (some (st, acc)), (text.drop q.1).take q.2.length = q.2) := by
  induction l with
  | nil =>
      intro text i
      constructor
      · intro _ q hq; simp [tokenizeAux] at hq
      · intro st acc hd _ q hq
        simp [tokenizeAux] at hq
        subst hq
        simp only
        rw [hd]
        simp
  | cons c rest ih =>
      intro text i
      constructor
      · intro hd q hq
        simp only [tokenizeAux] at hq
        by_cases hc : isSpace c
        · rw [if_pos hc] at hq
          exact (ih text (i + 1)).1 (drop_succ_of_drop_cons hd) q hq
        · rw [if_neg hc] at hq
          exact (ih text (i + 1)).2 i [c] (by simpa using hd) (by simp) q hq
      · intro st acc hd hi q hq
        simp only [tokenizeAux] at hq
        have hdi : text.drop i = c :: rest := by
          rw [hi]
          exact drop_at_state hd
        by_cases hc : isSpace c
        · rw [if_pos hc] at hq
          rcases List.mem_cons.mp hq with rfl | hq2
          · simp only
            rw [hd, List.take_left]
          · exact (ih text (i + 1)).1 (drop_succ_of_drop_cons hdi) q hq2
        · rw [if_neg hc] at hq
          refine (ih text (i + 1)).2 st (c :: acc) ?_ (by simp [hi]; omega) q hq
          rw [hd, List.reverse_cons, List.append_assoc]
          rfl

/-! ### The word-index scan returns exactly the end of the n-th token -/

lemma wordEndLoop_skip (text : List Nat) (i : Nat) (c : Nat) (r2 : List Nat)
    (hd : text.drop i = c :: r2) (hc : isSpace c = true)
    (toks pre : List (Nat × List Nat)) (st : Nat) (w : List Nat)
    (post : List (Nat × List Nat))
    (htoks : ∀ q ∈ toks, q.2 ≠ [] ∧ ∀ x ∈ q.2, isSpace x = false)
    (heq : toks = pre ++ (st, w) :: post) :
    wordEndLoop text (pre.map Prod.snd ++ [w]) i
      = wordEndLoop text (pre.map Prod.snd ++ [w]) (i + 1) := by
  cases pre with
  | nil =>
      have hw := htoks (st, w) (by rw [heq]; simp)
      simp only [List.map_nil, List.nil_append]
      exact wordEndLoop_step_space text w [] i hw.1
        (not_match_of_space text w i c r2 hd hc hw.1 hw.2)
  | cons a pre2 =>
      have ha := htoks a (by rw [heq]; simp)
      simp only [List.map_cons, List.cons_append]
      exact wordEndLoop_step_space text a.2 _ i ha.1
        (not_match_of_space text a.2 i c r2 hd hc ha.1 ha.2)

lemma tokenizeAux_loop (l : List Nat) :
    ∀ (text : List Nat) (i : Nat),
      (text.drop i = l →
        ∀ pre st w post, tokenizeAux l i none = pre ++ (st, w) :: post →
          wordEndLoop text (pre.map Prod.snd ++ [w]) i = st + w.length)
    ∧ (∀ st0 acc, text.drop st0 = acc.reverse ++ l → i = st0 + acc.length → acc ≠ [] →
        ∀ pre st w post, tokenizeAux l i (some (st0, acc)) = pre ++ (st, w) :: post →
          wordEndLoop text (pre.map Prod.snd ++ [w]) st0 = st + w.length) := by
  induction l with
  | nil =>
      intro text i
      constructor
      · intro _ pre st w post h
        simp only [tokenizeAux] at h
        cases pre <;> simp at h
      · intro st0 acc hd _ _ pre st w post h
        simp only [tokenizeAux] at h
        cases pre with
        | cons a pre2 =>
            have hlen := congrArg List.length h
            simp at hlen
        | nil =>
            simp only [List.nil_append, List.cons.injEq, Prod.mk.injEq] at h
            obtain ⟨⟨h5, h6⟩, h7⟩ := h
            subst h5
            subst h6
            simp only [List.map_nil, List.nil_append]
            have hmatch : (text.drop st0).take acc.reverse.length = acc.reverse := by
              rw [hd]
              simp
            rw [wordEndLoop_start_match text acc.reverse [] st0 hmatch]
            rfl
  | cons c rest ih =>
      intro text i
      constructor
      · intro hd pre st w post h
        simp only [tokenizeAux] at h
        by_cases hc : isSpace c
        · rw [if_pos hc] at h
          have step := wordEndLoop_skip text i c rest hd hc _ pre st w post
            ((tokenizeAux_tokens rest (i + 1)).1) h
          rw [step]
          exact (ih text (i + 1)).1 (drop_succ_of_drop_cons hd) pre st w post h
        · rw [if_neg hc] at h
          exact (ih text (i + 1)).2 i [c] (by simpa using hd) (by simp) (by simp)
            pre st w post h
      · intro st0 acc hd hi hacc pre st w post h
        simp only [tokenizeAux] at h
        have hdi : text.drop i = c :: rest := by
          rw [hi]
          exact drop_at_state hd
        have hmatch : (text.drop st0).take acc.reverse.length = acc.reverse := by
          rw [hd, List.take_left]
        by_cases hc : isSpace c
        · rw [if_pos hc] at h
          cases pre with
          | nil =>
              simp only [List.nil_append, List.cons.injEq, Prod.mk.injEq] at h
              obtain ⟨⟨h5, h6⟩, h7⟩ := h
              subst h5
              subst h6
              simp only [List.map_nil, List.nil_append]
              rw [wordEndLoop_start_match text acc.reverse [] st0 hmatch]
              rfl
          | cons a pre2 =>
              simp only [List.cons_append, List.cons.injEq] at h
              obtain ⟨h3, h4⟩ := h
              subst h3
              simp only [List.map_cons, List.cons_append]
              rw [wordEndLoop_start_match text acc.reverse _ st0 hmatch]
              rw [List.length_reverse, ← hi]
              have step := wordEndLoop_skip text i c rest hdi hc _ pre2 st w post
                ((tokenizeAux_tokens rest (i + 1)).1) h4
              rw [step]
              exact (ih text (i + 1)).1 (drop_succ_of_drop_cons hdi) pre2 st w post h4
        · rw [if_neg hc] at h
          refine (ih text (i + 1)).2 st0 (c :: acc) ?_ (by simp [hi]; omega) (by simp)
            pre st w post h
          rw [hd, List.reverse_cons, List.append_assoc]
          rfl

lemma wordIndex_ok_char (v : List Nat) (n : Nat) (h1 : 1 ≤ n)
    (h2 : n ≤ (pySplit v).length) :
    ∃ st w, (tokenize v).get? (n - 1) = some (st, w)
      ∧ (v.drop st).take w.length = w
      ∧ w ≠ []
      ∧ find_injection_point v (.wordIndex n) = .ok (st + w.length) := by
  have hlen : n - 1 < (tokenize v).length := by
    have he : (pySplit v).length = (tokenize v).length := by simp [pySplit]
    omega
  rcases hq : (tokenize v).get ⟨n - 1, hlen⟩ with ⟨st, w⟩
  have hget : (tokenize v).get? (n - 1) = some (st, w) := by
    rw [List.get?_eq_get hlen, hq]
  have hmem : (st, w) ∈ tokenize v := by
    rw [← hq]
    exact List.get_mem (tokenize v) (n - 1) hlen
  have hgetelem : (tokenize v)[n - 1] = (st, w) := by
    rw [← List.get_eq_getElem (tokenize v) ⟨n - 1, hlen⟩]
    exact hq
  have hdecomp : tokenize v = (tokenize v).take (n - 1) ++ (st, w) :: (tokenize v).drop n := by
    have h3 : (tokenize v).drop (n - 1) = (st, w) :: (tokenize v).drop (n - 1 + 1) := by
      rw [List.drop_eq_getElem_cons hlen, hgetelem]
    have h4 := List.take_append_drop (n - 1) (tokenize v)
    rw [h3] at h4
    have h5 : n - 1 + 1 = n := by omega
    rw [h5] at h4
    exact h4.symm
  refine ⟨st, w, hget, (tokenizeAux_occ v v 0).1 (by simp) (st, w) hmem,
    ((tokenizeAux_tokens v 0).1 (st, w) hmem).1, ?_⟩
  have hloop := (tokenizeAux_loop v v 0).1 (by simp)
    ((tokenize v).take (n - 1)) st w ((tokenize v).drop n) hdecomp
  have hget2 : (tokenize v)[n - 1]? = some (st, w) := by
    rw [List.getElem?_eq_getElem hlen, hgetelem]
  have htake : (pySplit v).take n = ((tokenize v).take (n - 1)).map Prod.snd ++ [w] := by
    have h6 : (tokenize v).take ((n - 1) + 1) = (tokenize v).take (n - 1) ++ [(st, w)] := by
      rw [List.take_succ, hget2]
      rfl
    have h7 : (n - 1) + 1 = n := by omega
    rw [h7] at h6
    rw [pySplit, ← List.map_take, h6, List.map_append]
    rfl
  simp only [find_injection_point]
  rw [if_neg (by omega), htake, hloop]

lemma find_injection_point_le (v : List Nat) (p : Placement) (pos : Nat)
    (h : find_injection_point v p = .ok pos) : pos ≤ v.length := by
  cases p with
  | firstSpace =>
      simp only [find_injection_point] at h
      cases hf : firstSpaceIdx v with
      | none => rw [hf] at h; cases h
      | some i =>
          rw [hf] at h
          cases h
          have := (firstSpaceIdx_some v i hf).1
          omega
  | atEnd =>
      simp only [find_injection_point] at h
      cases h
      exact le_rfl
  | wordIndex n =>
      simp only [find_injection_point] at h
      by_cases hc : n < 1 ∨ (pySplit v).length < n
      · rw [if_pos hc] at h; cases h
      · push_neg at hc
        obtain ⟨st, w, _, hocc, hne, heq⟩ := wordIndex_ok_char v n (by omega) (by omega)
        simp only [find_injection_point] at heq
        rw [heq] at h
        cases h
        have hlen := congrArg List.length hocc
        simp only [List.length_take, List.length_drop] at hlen
        have hwpos : 0 < w.length := List.length_pos.mpr hne
        omega
  | charOffset n =>
      simp only [find_injection_point] at h
      by_cases hc : v.length < n
      · rw [if_pos hc] at h; cases h
      · rw [if_neg hc] at h; cases h; omega

/-- Splicing the same non-empty carrier at two different offsets of a
carrier-free text yields different strings (they differ at the smaller
offset: one has a carrier character there, the other a text character). -/
lemma splice_ne (v C : List Nat) (p1 p2 : Nat) (P : Nat → Bool)
    (hC : C ≠ []) (hcar : ∀ c ∈ C, P c = true) (hv : ∀ c ∈ v, P c = false)
    (h12 : p1 < p2) (hp2 : p2 ≤ v.length) :
    v.take p1 ++ C ++ v.drop p1 ≠ v.take p2 ++ C ++ v.drop p2 := by
  intro heq
  have hCpos : 0 < C.length := List.length_pos.mpr hC
  have hlen1 : (v.take p1).length = p1 := List.length_take_of_le (by omega)
  have hlen2 : (v.take p2).length = p2 := List.length_take_of_le hp2
  have hg := congrArg (fun l => l[p1]?) heq
  simp only at hg
  rw [List.getElem?_append_left (by rw [List.length_append, hlen1]; omega : p1 < (v.take p1 ++ C).length),
    List.getElem?_append_right (by omega : (v.take p1).length ≤ p1),
    List.getElem?_append_left (by rw [List.length_append, hlen2]; omega : p1 < (v.take p2 ++ C).length),
    List.getElem?_append_left (by omega : p1 < (v.take p2).length),
    List.getElem?_take_of_lt h12] at hg
  rw [hlen1, Nat.sub_self] at hg
  cases hCc : C with
  | nil => exact hC hCc
  | cons c0 C2 =>
      rw [hCc] at hg
      have hvp : p1 < v.length := by omega
      rw [List.getElem?_eq_getElem hvp] at hg
      simp only [List.getElem?_cons_zero] at hg
      have h1 : P c0 = true := hcar c0 (by rw [hCc]; simp)
      have h2 : P (v[p1]) = false := hv _ (v.getElem_mem hvp)
      rw [Option.some.injEq] at hg
      rw [← hg] at h2
      rw [h1] at h2
      cases h2

/-! ### Orchestrator lemmas -/

lemma encode_ok (v s : List Nat) (m : String) (p : Placement) (pos : Nat)
    (hv : v ≠ []) (hvl : v.length ≤ MAX_VISIBLE_LENGTH) (hsl : s.length ≤ MAX_SECRET_LENGTH)
    (hp : find_injection_point v p = .ok pos) (hm : m = "zero-width" ∨ m = "tag") :
    encode v s m p =
      .ok (v.take pos ++ (if m = "zero-width" then encode_zero_width s else encode_tag s)
            ++ v.drop pos) := by
  rw [encode, if_neg hv, if_neg (Nat.not_lt.mpr hvl), if_neg (Nat.not_lt.mpr hsl), hp]
  rcases hm with h | h <;> simp [h]

lemma decode_zw_eq (t : List Nat) : decode t "zero-width" = .ok (decode_zero_width t) := by
  rw [decode, if_neg (by decide), if_pos rfl]

lemma decode_tag_eq (t : List Nat) : decode t "tag" = .ok (decode_tag t) := by
  rw [decode, if_neg (by decide), if_neg (by decide), if_pos rfl]

lemma decode_auto_eq (t : List Nat) :
    decode t "auto"
      = .ok (if decode_zero_width t = [] then decode_tag t else decode_zero_width t) := by
  rw [decode, if_pos rfl]

lemma filterMap_zwBitEnc_length (bs : List Nat) (h : ∀ b ∈ bs, b ≤ 1) :
    (bs.filterMap zwBitEnc).length = bs.length := by
  induction bs with
  | nil => rfl
  | cons b bs ih =>
      have hb : b = 0 ∨ b = 1 := by have := h b (by simp); omega
      have ihr := ih (fun x hx => h x (by simp [hx]))
      have e0 : zwBitEnc 0 = some ZWS := rfl
      have e1 : zwBitEnc 1 = some ZWNJ := rfl
      rcases hb with rfl | rfl
      · simp [List.filterMap_cons, e0, ihr]
      · simp [List.filterMap_cons, e1, ihr]

lemma encode_zero_width_single (c : Nat) :
    encode_zero_width [c] = (pyFormat08b c).filterMap zwBitEnc := by
  rw [encode_zero_width]
  simp

lemma groupBytesAux_le (fuel : Nat) :
    ∀ bs, (∀ b ∈ bs, b ≤ 1) → ∀ x ∈ groupBytesAux fuel bs, x ≤ 255 := by
  induction fuel with
  | zero => intro bs _ x hx; simp [groupBytesAux] at hx
  | succ fuel ih =>
      intro bs hb x hx
      rw [groupBytesAux] at hx
      by_cases h8 : 8 ≤ bs.length
      · rw [if_pos h8] at hx
        rcases List.mem_cons.mp hx with rfl | hx2
        · have hlt := bitsToNat_lt (bs.take 8) (fun b hbm => hb b (List.take_subset 8 bs hbm))
          have hlen : (bs.take 8).length = 8 := List.length_take_of_le h8
          rw [hlen] at hlt
          have hp : (2 : Nat) ^ 8 = 256 := by norm_num
          omega
        · exact ih (bs.drop 8) (fun b hbm => hb b (List.drop_subset 8 bs hbm)) x hx2
      · rw [if_neg h8] at hx
        simp at hx

lemma groupBytes_le (bs : List Nat) (h : ∀ b ∈ bs, b ≤ 1) :
    ∀ x ∈ groupBytes bs, x ≤ 255 :=
  groupBytesAux_le bs.length bs h

/-- Stripping, from a splice, exactly the characters satisfying `P`
(with the carrier all-`P` and the visible text `P`-free) recovers the
visible text. -/
lemma strip_splice (v C : List Nat) (pos : Nat) (P : Nat → Bool)
    (hcar : ∀ c ∈ C, P c = true) (hv : ∀ c ∈ v, P c = false) :
    (v.take pos ++ C ++ v.drop pos).filter (fun c => !(P c)) = v := by
  have h1 : (v.take pos).filter (fun c => !(P c)) = v.take pos :=
    List.filter_eq_self.mpr (fun a ha => by simp [hv a (List.take_subset pos v ha)])
  have h2 : (v.drop pos).filter (fun c => !(P c)) = v.drop pos :=
    List.filter_eq_self.mpr (fun a ha => by simp [hv a (List.drop_subset pos v ha)])
  have h3 : C.filter (fun c => !(P c)) = [] :=
    List.filter_eq_nil_iff.mpr (fun a ha => by simp [hcar a ha])
  rw [List.filter_append, List.filter_append, h1, h2, h3, List.append_nil,
    List.take_append_drop]

/-! ## Claim theorems -/

/-- C1 (counterexample to the claim as stated): for the visible text made of
eight ZERO-WIDTH SPACE characters and the empty secret, encoding with the
zero-width method at the end and then decoding with the same method yields
the one-character secret U+0000, not the empty string: `decode` scans the
whole text, and this visible text itself consists of carrier characters. -/
theorem C1_counterexample :
    encode (List.replicate 8 0x200b) [] "zero-width" .atEnd
      = .ok (List.replicate 8 0x200b)
  ∧ decode (List.replicate 8 0x200b) "zero-width" = .ok [0]
  ∧ ([0] : List Nat) ≠ [] :=
  ⟨rfl, rfl, by decide⟩

/-- C1 (amended): the round trip `decode (encode v s method p) method = s`
holds for every non-empty visible text within the length bound that
contains NO carrier-alphabet character of the chosen method, every secret
within the length bound whose characters are ≤ U+00FF (zero-width) resp.
ASCII (tag), and every placement rule that resolves. -/
theorem C1_round_trip (v s : List Nat) (p : Placement) (pos : Nat)
    (hv : v ≠ []) (hvl : v.length ≤ MAX_VISIBLE_LENGTH)
    (hsl : s.length ≤ MAX_SECRET_LENGTH)
    (hp : find_injection_point v p = .ok pos) :
    ((∀ c ∈ s, c ≤ 0xFF) → (∀ c ∈ v, isZWCarrier c = false) →
      (encode v s "zero-width" p).bind (fun t => decode t "zero-width") = .ok s)
  ∧ ((∀ c ∈ s, c ≤ 0x7F) → (∀ c ∈ v, isTagCarrier c = false) →
      (encode v s "tag" p).bind (fun t => decode t "tag") = .ok s) := by
  constructor
  · intro hs hclean
    rw [encode_ok v s "zero-width" p pos hv hvl hsl hp (Or.inl rfl), if_pos rfl]
    show decode (v.take pos ++ encode_zero_width s ++ v.drop pos) "zero-width" = .ok s
    rw [decode_zw_eq, decode_zw_splice v _ pos hclean, decode_zw_encode s hs]
  · intro hs hclean
    rw [encode_ok v s "tag" p pos hv hvl hsl hp (Or.inr rfl), if_neg (by decide)]
    show decode (v.take pos ++ encode_tag s ++ v.drop pos) "tag" = .ok s
    rw [decode_tag_eq, decode_tag_splice v _ pos hclean, decode_tag_encode s hs]

/-- C1 witness at a concrete input. -/
theorem C1_round_trip_witness :
    (encode (strCodes "Hello world") (strCodes "hi") "zero-width" .firstSpace).bind
      (fun t => decode t "zero-width") = .ok (strCodes "hi") :=
  (C1_round_trip (strCodes "Hello world") (strCodes "hi") .firstSpace 6
    (by decide) (by decide) (by decide) rfl).1 (by decide) (by decide)

/-- C2 (counterexample to the claim as stated): the zero-width encoder does
NOT truncate code points above 255 to their low 8 bits.  `format(256,'08b')`
is the 9-digit string `100000000`, so `encode_zero_width` emits 9 carrier
characters for the single character U+0100, not 8, and the result differs
from the encoding of the low-8-bits character U+0000. -/
theorem C2_counterexample :
    (encode_zero_width [256]).length = 9
  ∧ encode_zero_width [256] ≠ encode_zero_width [256 % 256] :=
  ⟨rfl, by decide⟩

/-- C2 (amended): the carrier is the concatenation of one block per secret
character; a character with code point ≤ 255 contributes exactly 8 carrier
characters (its 8-bit big-endian binary rendering), while a character above
255 contributes its FULL big-endian binary representation — more than 8
carrier characters — so the full code point (not its low 8 bits) is
recorded, as witnessed by reading the block back as a big-endian number. -/
theorem C2_zero_width_bits (c : Nat) (s : List Nat) :
    encode_zero_width (c :: s) = encode_zero_width [c] ++ encode_zero_width s
  ∧ (∀ ch ∈ encode_zero_width [c], isZWCarrier ch = true)
  ∧ (c ≤ 255 → (encode_zero_width [c]).length = 8)
  ∧ (255 < c → 8 < (encode_zero_width [c]).length)
  ∧ bitsToNat ((encode_zero_width [c]).filterMap zwDecodeBit) = c := by
  refine ⟨?_, encode_zero_width_carrier [c], ?_, ?_, ?_⟩
  · rw [encode_zero_width, encode_zero_width, encode_zero_width]
    simp [List.filterMap_append]
  · intro hc
    rw [encode_zero_width_single,
      filterMap_zwBitEnc_length (pyFormat08b c) (pyFormat08b_bits_le c),
      pyFormat08b_length c hc]
  · intro hc
    rw [encode_zero_width_single,
      filterMap_zwBitEnc_length (pyFormat08b c) (pyFormat08b_bits_le c)]
    exact pyFormat08b_length_gt c hc
  · rw [encode_zero_width_single, zw_bits_roundtrip (pyFormat08b c) (pyFormat08b_bits_le c),
      bitsToNat_pyFormat08b]

/-- C2 witness at a concrete input. -/
theorem C2_zero_width_bits_witness :
    8 < (encode_zero_width [300]).length
  ∧ bitsToNat ((encode_zero_width [300]).filterMap zwDecodeBit) = 300 :=
  ⟨(C2_zero_width_bits 300 []).2.2.2.1 (by decide), (C2_zero_width_bits 300 []).2.2.2.2⟩

/-- C3 (counterexample to the claim as stated): for the visible text
consisting of the single carrier character U+200B, stripping the zero-width
alphabet from the encoded text removes that visible character too, so the
remainder is empty rather than the original visible text. -/
theorem C3_counterexample :
    encode [0x200b] [] "zero-width" .atEnd = .ok [0x200b]
  ∧ [0x200b].filter (fun c => !(isZWCarrier c)) = []
  ∧ ([] : List Nat) ≠ [0x200b] :=
  ⟨rfl, rfl, by decide⟩

/-- C3 (amended): if the visible text contains no character of the chosen
method's carrier alphabet, then removing every carrier-alphabet character
from the encoded text reproduces the visible text exactly, for any secret
and any placement rule that resolves. -/
theorem C3_carrier_removability (v s : List Nat) (p : Placement) (pos : Nat)
    (hv : v ≠ []) (hvl : v.length ≤ MAX_VISIBLE_LENGTH)
    (hsl : s.length ≤ MAX_SECRET_LENGTH)
    (hp : find_injection_point v p = .ok pos) :
    ((∀ c ∈ v, isZWCarrier c = false) → ∀ t, encode v s "zero-width" p = .ok t →
        t.filter (fun c => !(isZWCarrier c)) = v)
  ∧ ((∀ c ∈ v, isTagCarrier c = false) → ∀ t, encode v s "tag" p = .ok t →
        t.filter (fun c => !(isTagCarrier c)) = v) := by
  constructor
  · intro hclean t ht
    rw [encode_ok v s "zero-width" p pos hv hvl hsl hp (Or.inl rfl), if_pos rfl,
      Except.ok.injEq] at ht
    rw [← ht]
    exact strip_splice v _ pos isZWCarrier (encode_zero_width_carrier s) hclean
  · intro hclean t ht
    rw [encode_ok v s "tag" p pos hv hvl hsl hp (Or.inr rfl), if_neg (by decide),
      Except.ok.injEq] at ht
    rw [← ht]
    exact strip_splice v _ pos isTagCarrier (encode_tag_carrier s) hclean

/-- C3 witness at a concrete input. -/
theorem C3_carrier_removability_witness :
    ((strCodes "Hello ") ++ encode_tag (strCodes "hi") ++ (strCodes "world")).filter
      (fun c => !(isTagCarrier c)) = strCodes "Hello world" :=
  (C3_carrier_removability (strCodes "Hello world") (strCodes "hi") .firstSpace 6
    (by decide) (by decide) (by decide) rfl).2 (by decide) _ rfl

/-- C4: auto-decoding returns the zero-width result whenever that result is
non-empty, and only otherwise falls back to the tag result; it never
returns the tag result while the zero-width result is non-empty. -/
theorem C4_auto_priority (t : List Nat) :
    (decode_zero_width t ≠ [] → decode t "auto" = .ok (decode_zero_width t))
  ∧ (decode_zero_width t = [] → decode t "auto" = .ok (decode_tag t)) := by
  constructor
  · intro h
    rw [decode_auto_eq, if_neg h]
  · intro h
    rw [decode_auto_eq, if_pos h]

/-- C4 witness: a text carrying both a zero-width payload (decoding to
U+0000) and a tag payload (decoding to "A") auto-decodes to the zero-width
result. -/
theorem C4_auto_priority_witness :
    decode (List.replicate 8 0x200b ++ [0xE0041]) "auto"
      = .ok (decode_zero_width (List.replicate 8 0x200b ++ [0xE0041])) :=
  (C4_auto_priority (List.replicate 8 0x200b ++ [0xE0041])).1 (by decide)

/-- C5: the `word-n` resolver fails with WordIndexOutOfRange exactly when
n < 1 or n exceeds the number of whitespace-delimited words; otherwise it
returns the offset immediately after the n-th word's last character (the
n-th token occupies positions [st, st + w.length) of the text and the
resolver returns st + w.length), which the scanning loop computes by
searching for each word from just after the previous word's end. -/
theorem C5_word_index (v : List Nat) (n : Nat) :
    ((n < 1 ∨ (pySplit v).length < n) →
        find_injection_point v (.wordIndex n) = .error .wordIndexOutOfRange)
  ∧ (1 ≤ n → n ≤ (pySplit v).length →
        ∃ st w, (tokenize v).get? (n - 1) = some (st, w)
          ∧ (v.drop st).take w.length = w
          ∧ w ≠ []
          ∧ find_injection_point v (.wordIndex n) = .ok (st + w.length)) := by
  constructor
  · intro h
    simp only [find_injection_point]
    rw [if_pos h]
  · intro h1 h2
    exact wordIndex_ok_char v n h1 h2

/-- C5 witness: both the out-of-range and the in-range behaviour at
concrete inputs (text "a b a", whose third word is the second "a"). -/
theorem C5_word_index_witness :
    find_injection_point (strCodes "a b") (.wordIndex 5)
      = .error .wordIndexOutOfRange
  ∧ find_injection_point (strCodes "a b a") (.wordIndex 3) = .ok 5 := by
  constructor
  · exact (C5_word_index (strCodes "a b") 5).1 (by decide)
  · obtain ⟨st, w, hget, _, _, heq⟩ :=
      (C5_word_index (strCodes "a b a") 3).2 (by decide) (by decide)
    have hv : (tokenize (strCodes "a b a")).get? 2 = some (4, [97]) := rfl
    rw [hv, Option.some.injEq, Prod.mk.injEq] at hget
    obtain ⟨hst, hw⟩ := hget
    rw [heq, ← hst, ← hw]
    rfl

/-- C6 (counterexample to the claim as stated): the resolver places the
insertion point for WordIndex(2) in "The quick brown fox" at offset 9
(immediately after "quick"), not at offset 15 as the claim asserts. -/
theorem C6_counterexample :
    find_injection_point (strCodes "The quick brown fox") (.wordIndex 2) = .ok 9
  ∧ (9 : Nat) ≠ 15 :=
  ⟨rfl, by decide⟩

/-- C6 (amended): encode("The quick brown fox", "x", zero-width,
WordIndex 2) succeeds and inserts the carrier immediately after "quick",
i.e. at offset 9 of the visible text. -/
theorem C6_word2_offset9 :
    encode (strCodes "The quick brown fox") (strCodes "x") "zero-width" (.wordIndex 2)
      = .ok (strCodes "The quick" ++ encode_zero_width (strCodes "x")
              ++ strCodes " brown fox") := rfl

/-- C7: decode never fails for the methods "auto", "zero-width" and "tag"
(it always returns a string, possibly empty), and fails with UnknownMethod
for every other method string. -/
theorem C7_decode_total (t : List Nat) (m : String) :
    ((m = "auto" ∨ m = "zero-width" ∨ m = "tag") → ∃ r, decode t m = .ok r)
  ∧ (m ≠ "auto" → m ≠ "zero-width" → m ≠ "tag" →
      decode t m = .error .unknownMethod) := by
  constructor
  · rintro (rfl | rfl | rfl)
    · exact ⟨_, decode_auto_eq t⟩
    · exact ⟨_, decode_zw_eq t⟩
    · exact ⟨_, decode_tag_eq t⟩
  · intro h1 h2 h3
    rw [decode, if_neg h1, if_neg h2, if_neg h3]

/-- C7 witness at concrete inputs. -/
theorem C7_decode_total_witness :
    (∃ r, decode [65] "auto" = .ok r)
  ∧ decode [65] "steg" = .error .unknownMethod :=
  ⟨(C7_decode_total [65] "auto").1 (Or.inl rfl),
   (C7_decode_total [65] "steg").2 (by decide) (by decide) (by decide)⟩

/-- C8: the FirstSpace resolver returns the index of the first whitespace
character plus one when one exists (and that index really is the first:
every earlier character is non-whitespace), and fails with
NoWhitespaceFound exactly when the text has no whitespace character; in
particular encode("Helloworld", "test", zero-width, FirstSpace) fails with
NoWhitespaceFound. -/
theorem C8_first_space (v : List Nat) :
    (∀ i, firstSpaceIdx v = some i →
        i < v.length ∧ isSpace (v.getD i 0) = true
          ∧ (∀ j < i, isSpace (v.getD j 0) = false)
          ∧ find_injection_point v .firstSpace = .ok (i + 1))
  ∧ (firstSpaceIdx v = none →
        (∀ c ∈ v, isSpace c = false)
          ∧ find_injection_point v .firstSpace = .error .noWhitespaceFound)
  ∧ encode (strCodes "Helloworld") (strCodes "test") "zero-width" .firstSpace
      = .error .noWhitespaceFound := by
  refine ⟨?_, ?_, rfl⟩
  · intro i h
    obtain ⟨h1, h2, h3⟩ := firstSpaceIdx_some v i h
    refine ⟨h1, h2, h3, ?_⟩
    simp only [find_injection_point]
    rw [h]
  · intro h
    refine ⟨firstSpaceIdx_none v h, ?_⟩
    simp only [find_injection_point]
    rw [h]

/-- C8 witness at a concrete input. -/
theorem C8_first_space_witness :
    find_injection_point (strCodes "a b") .firstSpace = .ok 2 :=
  ((C8_first_space (strCodes "a b")).1 1 rfl).2.2.2

/-- C9 (counterexample to the claim as stated): with the visible text
U+200C followed by a space (which contains a carrier character) and the
secret "A", the two valid placements CharOffset(0) and End produce encoded
texts that decode to DIFFERENT secrets ("A" vs U+00A0), because the stray
carrier bit of the visible text lands on opposite sides of the payload. -/
theorem C9_counterexample :
    find_injection_point [0x200c, 32] (.charOffset 0) = .ok 0
  ∧ find_injection_point [0x200c, 32] .atEnd = .ok 2
  ∧ (encode [0x200c, 32] [65] "zero-width" (.charOffset 0)).bind
      (fun t => decode t "zero-width") = .ok [65]
  ∧ (encode [0x200c, 32] [65] "zero-width" .atEnd).bind
      (fun t => decode t "zero-width") = .ok [160]
  ∧ ([65] : List Nat) ≠ [160] :=
  ⟨rfl, rfl, rfl, rfl, by decide⟩

/-- C9 (amended): if the visible text contains no carrier character of the
chosen method, then for any two placements that resolve, the decoded secret
of the two encodings is identical; and if in addition the two placements
resolve to different offsets and the carrier string is non-empty, the two
encoded texts are different. -/
theorem C9_placement_invariance (v s : List Nat) (m : String) (p1 p2 : Placement)
    (pos1 pos2 : Nat) (t1 t2 : List Nat)
    (hv : v ≠ []) (hvl : v.length ≤ MAX_VISIBLE_LENGTH)
    (hsl : s.length ≤ MAX_SECRET_LENGTH)
    (h1 : find_injection_point v p1 = .ok pos1)
    (h2 : find_injection_point v p2 = .ok pos2)
    (hm : (m = "zero-width" ∧ ∀ c ∈ v, isZWCarrier c = false)
        ∨ (m = "tag" ∧ ∀ c ∈ v, isTagCarrier c = false))
    (ht1 : encode v s m p1 = .ok t1) (ht2 : encode v s m p2 = .ok t2) :
    decode t1 m = decode t2 m
  ∧ (pos1 ≠ pos2 →
      (m = "zero-width" → encode_zero_width s ≠ []) →
      (m = "tag" → encode_tag s ≠ []) →
      t1 ≠ t2) := by
  have hle1 := find_injection_point_le v p1 pos1 h1
  have hle2 := find_injection_point_le v p2 pos2 h2
  rcases hm with ⟨rfl, hclean⟩ | ⟨rfl, hclean⟩
  · rw [encode_ok v s "zero-width" p1 pos1 hv hvl hsl h1 (Or.inl rfl), if_pos rfl,
      Except.ok.injEq] at ht1
    rw [encode_ok v s "zero-width" p2 pos2 hv hvl hsl h2 (Or.inl rfl), if_pos rfl,
      Except.ok.injEq] at ht2
    subst ht1
    subst ht2
    constructor
    · rw [decode_zw_eq, decode_zw_eq, decode_zw_splice v _ pos1 hclean,
        decode_zw_splice v _ pos2 hclean]
    · intro hne hzw _
      have hC := hzw rfl
      rcases Nat.lt_or_ge pos1 pos2 with h | h
      · exact splice_ne v _ pos1 pos2 isZWCarrier hC
          (encode_zero_width_carrier s) hclean h hle2
      · exact (splice_ne v _ pos2 pos1 isZWCarrier hC
          (encode_zero_width_carrier s) hclean (by omega) hle1).symm
  · rw [encode_ok v s "tag" p1 pos1 hv hvl hsl h1 (Or.inr rfl), if_neg (by decide),
      Except.ok.injEq] at ht1
    rw [encode_ok v s "tag" p2 pos2 hv hvl hsl h2 (Or.inr rfl), if_neg (by decide),
      Except.ok.injEq] at ht2
    subst ht1
    subst ht2
    constructor
    · rw [decode_tag_eq, decode_tag_eq, decode_tag_splice v _ pos1 hclean,
        decode_tag_splice v _ pos2 hclean]
    · intro hne _ htag
      have hC := htag rfl
      rcases Nat.lt_or_ge pos1 pos2 with h | h
      · exact splice_ne v _ pos1 pos2 isTagCarrier hC
          (encode_tag_carrier s) hclean h hle2
      · exact (splice_ne v _ pos2 pos1 isTagCarrier hC
          (encode_tag_carrier s) hclean (by omega) hle1).symm

/-- C9 witness at a concrete input (placements FirstSpace and End on
"Hello world"). -/
theorem C9_placement_invariance_witness :
    decode ((strCodes "Hello world").take 6 ++ encode_zero_width (strCodes "hi")
        ++ (strCodes "Hello world").drop 6) "zero-width"
      = decode ((strCodes "Hello world").take 11 ++ encode_zero_width (strCodes "hi")
        ++ (strCodes "Hello world").drop 11) "zero-width"
  ∧ ((strCodes "Hello world").take 6 ++ encode_zero_width (strCodes "hi")
        ++ (strCodes "Hello world").drop 6)
      ≠ ((strCodes "Hello world").take 11 ++ encode_zero_width (strCodes "hi")
        ++ (strCodes "Hello world").drop 11) := by
  have h := C9_placement_invariance (strCodes "Hello world") (strCodes "hi")
    "zero-width" .firstSpace .atEnd 6 11
    ((strCodes "Hello world").take 6 ++ encode_zero_width (strCodes "hi")
      ++ (strCodes "Hello world").drop 6)
    ((strCodes "Hello world").take 11 ++ encode_zero_width (strCodes "hi")
      ++ (strCodes "Hello world").drop 11)
    (by decide) (by decide) (by decide) rfl rfl
    (Or.inl ⟨rfl, by decide⟩) rfl rfl
  exact ⟨h.1, h.2 (by decide) (fun _ => by decide) (fun hm => absurd hm (by decide))⟩

/-- C10: every character produced by the zero-width decoder is a code point
at most 0xFF (each comes from an 8-bit chunk), and every character produced
by the tag decoder is at most 0x7F (each comes from the 128-character TAG
block shifted down). -/
theorem C10_decoded_ranges (t : List Nat) :
    (∀ c ∈ decode_zero_width t, c ≤ 0xFF) ∧ (∀ c ∈ decode_tag t, c ≤ 0x7F) := by
  constructor
  · intro c hc
    have hbits : ∀ b ∈ t.filterMap zwDecodeBit, b ≤ 1 := by
      intro b hb
      rcases List.mem_filterMap.mp hb with ⟨x, _, hx⟩
      rw [zwDecodeBit] at hx
      by_cases hx1 : x = ZWS
      · rw [if_pos hx1] at hx; cases hx; omega
      · rw [if_neg hx1] at hx
        by_cases hx2 : x = ZWNJ
        · rw [if_pos hx2] at hx; cases hx; omega
        · rw [if_neg hx2] at hx; cases hx
    exact groupBytes_le (t.filterMap zwDecodeBit) hbits c hc
  · intro c hc
    rcases List.mem_filterMap.mp hc with ⟨x, _, hx⟩
    rw [tagDec] at hx
    split at hx
    · rw [Option.some.injEq] at hx
      omega
    · cases hx

/-- C10 witness at concrete inputs. -/
theorem C10_decoded_ranges_witness : (160 : Nat) ≤ 0xFF ∧ (65 : Nat) ≤ 0x7F :=
  ⟨(C10_decoded_ranges [0x200c, 0x200b, 0x200c, 0x200b, 0x200b, 0x200b, 0x200b,
      0x200b]).1 160 (by decide),
   (C10_decoded_ranges [0xE0041]).2 65 (by decide)⟩

end Steg
